import Mathlib

/-!
Verification of the driver/optimizer layer of the `bacon` vanity-address
tool (`src/bacon/src/main.rs`) against its specification.

The external accelerated search engine (`agvg::bacon`) is out of scope and
appears here only through the numeric helpers the driver consumes.  Machine
integers (`usize`) are modelled as `Nat`; the `f64` wall-clock and
throughput quantities are modelled as exact rationals (`ℚ`), with the
Rust `as usize` truncation of a nonnegative float modelled as `Int.floor`.
Step results from the engine's `Runner` are modelled as explicit traces:
a list of per-step observations.
-/

namespace Bacon

/-- Modelled from the spec: `align_to_preferred_multiple` lives in the
external `agvg::bacon` module and its source is not part of this
repository's `src/`.  The spec (§4.6 step 1) says it aligns a value up to
the nearest multiple of `preferred_multiple` that is `≥` the value. -/
def align_to_preferred_multiple (x m : Nat) : Nat :=
  ((x + m - 1) / m) * m

/-- The aligned value is a multiple of `m`. -/
theorem align_dvd (x m : Nat) : m ∣ align_to_preferred_multiple x m :=
  ⟨_, Nat.mul_comm _ _⟩

/-- Alignment rounds up: the aligned value is at least the input. -/
theorem le_align (x m : Nat) (hm : 0 < m) : x ≤ align_to_preferred_multiple x m := by
  rcases Nat.eq_zero_or_pos x with hx | hx
  · simp [hx]
  · have h := Nat.div_add_mod (x + m - 1) m
    have h2 : (x + m - 1) % m < m := Nat.mod_lt _ hm
    set q := (x + m - 1) / m with hq
    set r := (x + m - 1) % m with hr
    have hxm : x + m - 1 = x + (m - 1) := by omega
    rw [hxm] at h
    have hr' : r ≤ m - 1 := by omega
    have h4 : x + (m - 1) ≤ m * q + (m - 1) := by
      calc x + (m - 1) = m * q + r := h.symm
        _ ≤ m * q + (m - 1) := Nat.add_le_add_left hr' _
    have h5 : x ≤ m * q := Nat.le_of_add_le_add_right h4
    rw [hq] at h5
    rw [Nat.mul_comm] at h5
    exact h5

/-- Alignment is the identity on multiples of `m`. -/
theorem align_eq_of_dvd (x m : Nat) (hm : 0 < m) (hdvd : m ∣ x) :
    align_to_preferred_multiple x m = x := by
  obtain ⟨k, rfl⟩ := hdvd
  unfold align_to_preferred_multiple
  have h1 : m * k + m - 1 = (m - 1) + m * k := by
    have := Nat.add_sub_assoc hm (m * k)
    omega
  rw [h1, Nat.add_mul_div_left _ _ hm, Nat.div_eq_of_lt (by omega), Nat.zero_add,
    Nat.mul_comm]

/-- Alignment is monotone. -/
theorem align_mono (x y m : Nat) (hxy : x ≤ y) :
    align_to_preferred_multiple x m ≤ align_to_preferred_multiple y m :=
  Nat.mul_le_mul_right _ (Nat.div_le_div_right (by omega))

/-- Alignment is the LEAST multiple of `m` above `x`: any multiple of `m`
that is `≥ x` is `≥` the aligned value. -/
theorem align_le_of_dvd (x y m : Nat) (hm : 0 < m) (hxy : x ≤ y) (hdvd : m ∣ y) :
    align_to_preferred_multiple x m ≤ y := by
  calc align_to_preferred_multiple x m ≤ align_to_preferred_multiple y m :=
        align_mono x y m hxy
    _ = y := align_eq_of_dvd y m hm hdvd

/-- Alignment is idempotent. -/
theorem align_idem (x m : Nat) (hm : 0 < m) :
    align_to_preferred_multiple (align_to_preferred_multiple x m) m =
      align_to_preferred_multiple x m :=
  align_eq_of_dvd _ m hm (align_dvd x m)

/-!
### Ordered sweep (`optimize`, lines 222 and 316–321)

In ordered mode `current_batch_size` starts at `from_batch_size`; each loop
iteration runs one measurement trial at `current_batch_size`, then adds
`preferred_multiple` and breaks once the candidate exceeds `to_batch_size`.
`sweepSizes cur to m` is the list of batch sizes the trials use, in order.
The `m = 0` branch returns `[]` only to make the recursion total; the code
never runs with a zero preferred multiple (the spec requires it positive).
-/

def sweepSizes (cur hi m : Nat) : List Nat :=
  if _h : m = 0 then []
  else if cur + m > hi then [cur]
  else cur :: sweepSizes (cur + m) hi m
termination_by hi - cur
decreasing_by omega

theorem sweepSizes_pos (cur hi m : Nat) (hm : 0 < m) (h : cur + m > hi) :
    sweepSizes cur hi m = [cur] := by
  rw [sweepSizes, dif_neg (Nat.pos_iff_ne_zero.mp hm), if_pos h]

theorem sweepSizes_step (cur hi m : Nat) (hm : 0 < m) (h : ¬ cur + m > hi) :
    sweepSizes cur hi m = cur :: sweepSizes (cur + m) hi m := by
  rw [sweepSizes, dif_neg (Nat.pos_iff_ne_zero.mp hm), if_neg h]

theorem sweep_head (cur hi m : Nat) (hm : 0 < m) :
    (sweepSizes cur hi m).head? = some cur := by
  by_cases hgt : cur + m > hi
  · rw [sweepSizes_pos _ _ _ hm hgt]; rfl
  · rw [sweepSizes_step _ _ _ hm hgt]; rfl

theorem sweep_bounds_aux (m : Nat) (hm : 0 < m) :
    ∀ n cur hi, hi - cur ≤ n → cur ≤ hi →
      ∀ s ∈ sweepSizes cur hi m, cur ≤ s ∧ s ≤ hi := by
  intro n
  induction n with
  | zero =>
    intro cur hi hn hch s hs
    have hcur : cur = hi := by omega
    subst hcur
    rw [sweepSizes_pos cur cur m hm (by omega)] at hs
    simp only [List.mem_singleton] at hs
    subst hs
    exact ⟨le_refl _, le_refl _⟩
  | succ n ih =>
    intro cur hi hn hch s hs
    by_cases hgt : cur + m > hi
    · rw [sweepSizes_pos cur hi m hm hgt] at hs
      simp only [List.mem_singleton] at hs
      subst hs
      exact ⟨le_refl _, hch⟩
    · rw [sweepSizes_step cur hi m hm hgt] at hs
      rcases List.mem_cons.mp hs with h | h
      · subst h
        exact ⟨le_refl _, hch⟩
      · have := ih (cur + m) hi (by omega) (by omega) s h
        omega

theorem sweep_dvd_aux (m : Nat) (hm : 0 < m) :
    ∀ n cur hi, hi - cur ≤ n → m ∣ cur →
      ∀ s ∈ sweepSizes cur hi m, m ∣ s := by
  intro n
  induction n with
  | zero =>
    intro cur hi hn hdvd s hs
    rw [sweepSizes_pos cur hi m hm (by omega)] at hs
    simp only [List.mem_singleton] at hs
    subst hs
    exact hdvd
  | succ n ih =>
    intro cur hi hn hdvd s hs
    by_cases hgt : cur + m > hi
    · rw [sweepSizes_pos cur hi m hm hgt] at hs
      simp only [List.mem_singleton] at hs
      subst hs
      exact hdvd
    · rw [sweepSizes_step cur hi m hm hgt] at hs
      rcases List.mem_cons.mp hs with h | h
      · subst h
        exact hdvd
      · exact ih (cur + m) hi (by omega) (Nat.dvd_add hdvd (dvd_refl m)) s h

theorem sweep_chain_aux (m : Nat) (hm : 0 < m) :
    ∀ n cur hi, hi - cur ≤ n →
      List.Chain' (fun a b => b = a + m) (sweepSizes cur hi m) := by
  intro n
  induction n with
  | zero =>
    intro cur hi hn
    rw [sweepSizes_pos cur hi m hm (by omega)]
    exact List.chain'_singleton _
  | succ n ih =>
    intro cur hi hn
    by_cases hgt : cur + m > hi
    · rw [sweepSizes_pos cur hi m hm hgt]
      exact List.chain'_singleton _
    · rw [sweepSizes_step cur hi m hm hgt]
      apply List.chain'_cons'.mpr
      refine ⟨?_, ih (cur + m) hi (by omega)⟩
      intro y hy
      rw [sweep_head (cur + m) hi m hm] at hy
      simp only [Option.mem_some_iff] at hy
      omega

theorem sweep_last_aux (m : Nat) (hm : 0 < m) :
    ∀ n cur hi, hi - cur ≤ n → cur ≤ hi → m ∣ (hi - cur) →
      hi ∈ sweepSizes cur hi m := by
  intro n
  induction n with
  | zero =>
    intro cur hi hn hch _
    have hcur : cur = hi := by omega
    subst hcur
    rw [sweepSizes_pos cur cur m hm (by omega)]
    exact List.mem_singleton.mpr rfl
  | succ n ih =>
    intro cur hi hn hch hdvd
    by_cases hgt : cur + m > hi
    · have h0 : hi - cur = 0 := Nat.eq_zero_of_dvd_of_lt hdvd (by omega)
      have hcur : cur = hi := by omega
      subst hcur
      rw [sweepSizes_pos cur cur m hm (by omega)]
      exact List.mem_singleton.mpr rfl
    · rw [sweepSizes_step cur hi m hm hgt]
      apply List.mem_cons_of_mem
      have hd' : m ∣ (hi - (cur + m)) := by
        have := Nat.dvd_sub' hdvd (dvd_refl m)
        have heq : hi - cur - m = hi - (cur + m) := by omega
        rwa [heq] at this
      exact ih (cur + m) hi (by omega) (by omega) hd'

/-- C1: in the ordered sweep over `[align(min), align(max)]` with `min ≤ max`,
every batch size tried is a multiple of `preferred_multiple` and lies in
`[align(min), align(max)]`; successive trial sizes increase by exactly
`preferred_multiple`; and the trial whose size equals the aligned maximum is
included before the sweep terminates. -/
theorem ordered_sweep_correct (minv maxv m : Nat) (hm : 0 < m) (hle : minv ≤ maxv) :
    (∀ s ∈ sweepSizes (align_to_preferred_multiple minv m)
        (align_to_preferred_multiple maxv m) m,
        m ∣ s ∧ align_to_preferred_multiple minv m ≤ s ∧
          s ≤ align_to_preferred_multiple maxv m)
    ∧ List.Chain' (fun a b => b = a + m)
        (sweepSizes (align_to_preferred_multiple minv m)
          (align_to_preferred_multiple maxv m) m)
    ∧ align_to_preferred_multiple maxv m ∈
        sweepSizes (align_to_preferred_multiple minv m)
          (align_to_preferred_multiple maxv m) m := by
  have hmono : align_to_preferred_multiple minv m ≤ align_to_preferred_multiple maxv m :=
    align_mono minv maxv m hle
  refine ⟨fun s hs => ?_, ?_, ?_⟩
  · refine ⟨sweep_dvd_aux m hm _ _ _ (le_refl _) (align_dvd minv m) s hs, ?_⟩
    exact sweep_bounds_aux m hm _ _ _ (le_refl _) hmono s hs
  · exact sweep_chain_aux m hm _ _ _ (le_refl _)
  · exact sweep_last_aux m hm _ _ _ (le_refl _) hmono
      (Nat.dvd_sub' (align_dvd maxv m) (align_dvd minv m))

/-- Witness for C1 at `min = 3`, `max = 10`, `preferred_multiple = 4`:
the sweep is `[4, 8, 12]`. -/
theorem ordered_sweep_correct_witness :
    0 < 4 ∧ 3 ≤ 10 ∧
      (∀ s ∈ sweepSizes (align_to_preferred_multiple 3 4)
          (align_to_preferred_multiple 10 4) 4,
          4 ∣ s ∧ align_to_preferred_multiple 3 4 ≤ s ∧
            s ≤ align_to_preferred_multiple 10 4) :=
  ⟨by decide, by decide, (ordered_sweep_correct 3 10 4 (by decide) (by decide)).1⟩

/-!
### Random batch-size selection (`optimize`, lines 236–244)

In non-ordered mode each loop iteration draws `rnd = rand::random::<usize>()`,
computes `val = rnd % (to_batch_size - from_batch_size)` (or `0` when the
difference is zero) and sets
`current_batch_size = align_to_preferred_multiple(val + from_batch_size, m)`.
The unsigned subtraction `to_batch_size - from_batch_size` is unguarded in
the code; `checkedSub` returns `none` exactly when it would underflow
(a panic in a debug build, wraparound in release).
-/

def checkedSub (a b : Nat) : Option Nat :=
  if b ≤ a then some (a - b) else none

def randomBatchSize (from_batch_size to_batch_size m rnd : Nat) : Option Nat :=
  (checkedSub to_batch_size from_batch_size).map fun d =>
    align_to_preferred_multiple
      ((match d with
        | 0 => 0
        | x => rnd % x) + from_batch_size) m

/-- C5: in random mode, every batch size selected for a trial is a multiple
of `preferred_multiple` and lies within `[align(min), align(max)]`; when the
aligned range is empty (`align(max) = align(min)`) the offset is `0` and the
selected size is that single aligned value. -/
theorem random_mode_in_range (minv maxv m rnd : Nat) (hm : 0 < m) (hle : minv ≤ maxv) :
    ∀ s, randomBatchSize (align_to_preferred_multiple minv m)
        (align_to_preferred_multiple maxv m) m rnd = some s →
      (m ∣ s ∧ align_to_preferred_multiple minv m ≤ s ∧
        s ≤ align_to_preferred_multiple maxv m) ∧
      (align_to_preferred_multiple maxv m = align_to_preferred_multiple minv m →
        s = align_to_preferred_multiple minv m) := by
  intro s hs
  have hmono : align_to_preferred_multiple minv m ≤ align_to_preferred_multiple maxv m :=
    align_mono minv maxv m hle
  rw [randomBatchSize, checkedSub, if_pos hmono, Option.map_some'] at hs
  have hs' := (Option.some.inj hs).symm
  rcases hd : (align_to_preferred_multiple maxv m - align_to_preferred_multiple minv m)
      with _ | d
  · rw [hd] at hs'
    simp only [Nat.zero_add] at hs'
    have heq : s = align_to_preferred_multiple minv m := by
      rw [hs', align_idem minv m hm]
    refine ⟨⟨?_, ?_, ?_⟩, fun _ => heq⟩
    · rw [heq]; exact align_dvd minv m
    · rw [heq]
    · rw [heq]; exact hmono
  · rw [hd] at hs'
    simp only at hs'
    have hmod : rnd % (d + 1) < d + 1 := Nat.mod_lt rnd (by omega)
    refine ⟨⟨?_, ?_, ?_⟩, fun hempty => ?_⟩
    · rw [hs']; exact align_dvd _ m
    · rw [hs']
      exact le_trans (Nat.le_add_left _ _) (le_align _ m hm)
    · rw [hs']
      refine align_le_of_dvd _ _ m hm (by omega) (align_dvd maxv m)
    · exfalso
      omega

/-- Witness for C5 at `min = 3`, `max = 10`, `m = 4`, random draw `7`:
the selected size is `align(7 % 8 + 4, 4) = 12`. -/
theorem random_mode_in_range_witness :
    (0 < 4 ∧ 3 ≤ 10) ∧
      ((4 ∣ 12 ∧ align_to_preferred_multiple 3 4 ≤ 12 ∧
          12 ≤ align_to_preferred_multiple 10 4) ∧
        (align_to_preferred_multiple 10 4 = align_to_preferred_multiple 3 4 →
          12 = align_to_preferred_multiple 3 4)) :=
  ⟨⟨by decide, by decide⟩,
    random_mode_in_range 3 10 4 7 (by decide) (by decide) 12 (by decide)⟩

/-- C10: the unsigned subtraction `to_batch_size - from_batch_size` in the
random branch does not underflow whenever `align(min) ≤ to_batch_size`, and
this precondition is necessary: when `to_batch_size < align(min)` the
unguarded subtraction underflows and no batch size is produced. -/
theorem random_sub_no_underflow (minv hi m rnd : Nat) :
    (align_to_preferred_multiple minv m ≤ hi →
      (randomBatchSize (align_to_preferred_multiple minv m) hi m rnd).isSome = true) ∧
    (hi < align_to_preferred_multiple minv m →
      randomBatchSize (align_to_preferred_multiple minv m) hi m rnd = none) := by
  constructor
  · intro h
    rw [randomBatchSize, checkedSub, if_pos h, Option.map_some']
    rfl
  · intro h
    rw [randomBatchSize, checkedSub, if_neg (by omega)]
    rfl

/-- Witness for C10: with `min = 3`, `m = 4` the subtraction succeeds against
`to_batch_size = 12` and underflows against `to_batch_size = 2`. -/
theorem random_sub_no_underflow_witness :
    (randomBatchSize (align_to_preferred_multiple 3 4) 12 4 7).isSome = true ∧
      randomBatchSize (align_to_preferred_multiple 3 4) 2 4 7 = none :=
  ⟨(random_sub_no_underflow 3 12 4 7).1 (by decide),
    (random_sub_no_underflow 3 2 4 7).2 (by decide)⟩

/-!
### Per-trial measurement loop (`optimize`, lines 269–314)

After the preheat phase the loop repeatedly calls `runner.step()`,
accumulates `processed` into `total`, and reads the cumulative elapsed
wall-clock time.  A step observed with zero elapsed time is skipped
(`continue`) without computing a throughput.  Otherwise
`performance = total as f64 / elapsed_seconds` is computed and the trial
ends exactly when `performance as usize > 0 && total as f64 >= performance`.

The runner and clock are modelled as a trace: a list of pairs
`(processed, elapsed)` where `processed` is the step's processed count and
`elapsed` the cumulative wall-clock seconds observed right after that step.
`trialRun total trace` returns the list of `(elapsed, performance)` pairs
for every division actually performed, together with `some (total, performance)`
if the trial finalized within the trace (`none` when the trace ran out first,
i.e. the loop is still running).
-/

def trialRun : Nat → List (Nat × ℚ) → List (ℚ × ℚ) × Option (Nat × ℚ)
  | _, [] => ([], none)
  | total, (p, e) :: rest =>
    if e = 0 then trialRun (total + p) rest
    else if 0 < ⌊((total + p : Nat) : ℚ) / e⌋ ∧ ((total + p : Nat) : ℚ) ≥
        ((total + p : Nat) : ℚ) / e then
      ([(e, ((total + p : Nat) : ℚ) / e)], some (total + p, ((total + p : Nat) : ℚ) / e))
    else
      ((e, ((total + p : Nat) : ℚ) / e) :: (trialRun (total + p) rest).1,
        (trialRun (total + p) rest).2)

/-- The per-step `(running total, elapsed)` observations of a trace. -/
def stepChecks : Nat → List (Nat × ℚ) → List (Nat × ℚ)
  | _, [] => []
  | total, (p, e) :: rest => (total + p, e) :: stepChecks (total + p) rest

/-- The stabilization/acceptance condition of the spec: the step's elapsed
time is nonzero, the integer-truncated throughput is positive, and the
running total is at least the throughput. -/
def accept (te : Nat × ℚ) : Bool :=
  decide (te.2 ≠ 0 ∧ 0 < ⌊(te.1 : ℚ) / te.2⌋ ∧ (te.1 : ℚ) ≥ (te.1 : ℚ) / te.2)

/-- The `(batch_size, floor(throughput))` record written for a finalized
trial (lines 300–310). -/
def trialSample (batch : Nat) (trace : List (Nat × ℚ)) : Option (Nat × ℤ) :=
  ((trialRun 0 trace).2).map fun r => (batch, ⌊r.2⌋)

theorem trialRun_eq_find (trace : List (Nat × ℚ)) : ∀ total : Nat,
    (trialRun total trace).2 =
      ((stepChecks total trace).find? accept).map
        (fun te => (te.1, (te.1 : ℚ) / te.2)) := by
  induction trace with
  | nil => intro total; rfl
  | cons step rest ih =>
    intro total
    obtain ⟨p, e⟩ := step
    by_cases he : e = 0
    · have hacc : ¬ accept (total + p, e) = true := by
        simp [accept, he]
      rw [trialRun, if_pos he, stepChecks, List.find?_cons_of_neg _ hacc]
      exact ih (total + p)
    · by_cases hcond : 0 < ⌊((total + p : Nat) : ℚ) / e⌋ ∧ ((total + p : Nat) : ℚ) ≥
          ((total + p : Nat) : ℚ) / e
      · have hacc : accept (total + p, e) = true := by
          simp only [accept, decide_eq_true_eq]
          exact ⟨he, hcond.1, hcond.2⟩
        rw [trialRun, if_neg he, if_pos hcond, stepChecks,
          List.find?_cons_of_pos _ hacc, Option.map_some']
      · have hacc : ¬ accept (total + p, e) = true := by
          simp only [accept, decide_eq_true_eq]
          intro hc
          exact hcond ⟨hc.2.1, hc.2.2⟩
        rw [trialRun, if_neg he, if_neg hcond, stepChecks,
          List.find?_cons_of_neg _ hacc]
        exact ih (total + p)

/-- C2: a measurement trial is finalized exactly at the first step after
which the elapsed time is nonzero, the integer-truncated throughput
`total / elapsed` is positive, and the running total is at least the
throughput (`List.find?` returns the first acceptable observation); at that
point the `(batch_size, floor(throughput))` sample is emitted, and no trial
is finalized before both conditions hold (`find?` skips every earlier step). -/
theorem trial_finalization (batch total : Nat) (trace : List (Nat × ℚ)) :
    (trialRun total trace).2 =
      ((stepChecks total trace).find? accept).map
        (fun te => (te.1, (te.1 : ℚ) / te.2)) ∧
    trialSample batch trace =
      ((stepChecks 0 trace).find? accept).map
        (fun te => (batch, ⌊(te.1 : ℚ) / te.2⌋)) := by
  refine ⟨trialRun_eq_find trace total, ?_⟩
  rw [trialSample, trialRun_eq_find trace 0, Option.map_map]
  rfl

/-- C7: every division performed by the measurement loop has a nonzero
elapsed-time divisor — a step observed with zero elapsed time is skipped
before any throughput is computed. -/
theorem trial_no_zero_division (trace : List (Nat × ℚ)) :
    ∀ (total : Nat) (d : ℚ × ℚ), d ∈ (trialRun total trace).1 → d.1 ≠ 0 := by
  induction trace with
  | nil =>
    intro total d hd
    simp [trialRun] at hd
  | cons step rest ih =>
    intro total d hd
    obtain ⟨p, e⟩ := step
    by_cases he : e = 0
    · rw [trialRun, if_pos he] at hd
      exact ih (total + p) d hd
    · by_cases hcond : 0 < ⌊((total + p : Nat) : ℚ) / e⌋ ∧ ((total + p : Nat) : ℚ) ≥
          ((total + p : Nat) : ℚ) / e
      · rw [trialRun, if_neg he, if_pos hcond] at hd
        simp only [List.mem_singleton] at hd
        rw [hd]
        exact he
      · rw [trialRun, if_neg he, if_neg hcond] at hd
        rcases List.mem_cons.mp hd with h | h
        · rw [h]
          exact he
        · exact ih (total + p) d h

/-- Witness for C7: on the trace `[(5, 0), (5, 2)]` the zero-elapsed first
step is skipped and the only division performed uses divisor `2 ≠ 0`. -/
theorem trial_no_zero_division_witness :
    ((2, 5) : ℚ × ℚ) ∈ (trialRun 0 [(5, 0), (5, 2)]).1 ∧ ((2 : ℚ), (5 : ℚ)).1 ≠ 0 :=
  ⟨by norm_num [trialRun], trial_no_zero_division [(5, 0), (5, 2)] 0 (2, 5)
    (by norm_num [trialRun])⟩

/-!
### Best-result tracking (`optimize`, lines 224–225 and 283–298)

`(best_batch_size, best_performance)` starts at `(0, 0)` and, when a trial
finalizes with `(current_batch_size, performance)`, is replaced exactly when
`performance > best_performance`.  A whole run is the fold of this update
over the finalized trial samples in order.
-/

def updateBest (best trial : Nat × ℚ) : Nat × ℚ :=
  if trial.2 > best.2 then trial else best

def runBest (trials : List (Nat × ℚ)) : Nat × ℚ :=
  trials.foldl updateBest (0, 0)

theorem updateBest_le (best trial : Nat × ℚ) : best.2 ≤ (updateBest best trial).2 := by
  rw [updateBest]
  split
  · exact le_of_lt (by assumption)
  · exact le_refl _

theorem foldBest_le (trials : List (Nat × ℚ)) :
    ∀ best : Nat × ℚ, best.2 ≤ (trials.foldl updateBest best).2 := by
  induction trials with
  | nil => intro best; exact le_refl _
  | cons t ts ih =>
    intro best
    rw [List.foldl_cons]
    exact le_trans (updateBest_le best t) (ih (updateBest best t))

theorem foldBest_mem (trials : List (Nat × ℚ)) :
    ∀ best : Nat × ℚ, trials.foldl updateBest best = best ∨
      trials.foldl updateBest best ∈ trials := by
  induction trials with
  | nil => intro best; exact Or.inl rfl
  | cons t ts ih =>
    intro best
    rw [List.foldl_cons]
    rcases ih (updateBest best t) with h | h
    · rw [h, updateBest]
      split
      · exact Or.inr (List.mem_cons_self _ _)
      · exact Or.inl rfl
    · exact Or.inr (List.mem_cons_of_mem _ h)

/-- C4: within a run, the best performance never decreases: a single update
keeps `best_performance` unchanged unless the trial's performance is
strictly greater (in which case both fields are replaced by the trial's),
and across any sequence of trials the folded best performance is at least
the starting one. -/
theorem best_performance_monotone :
    (∀ best trial : Nat × ℚ, best.2 ≤ (updateBest best trial).2) ∧
    (∀ best trial : Nat × ℚ, trial.2 ≤ best.2 → updateBest best trial = best) ∧
    (∀ best trial : Nat × ℚ, best.2 < trial.2 → updateBest best trial = trial) ∧
    (∀ (trials : List (Nat × ℚ)) (best : Nat × ℚ),
      best.2 ≤ (trials.foldl updateBest best).2) := by
  refine ⟨updateBest_le, ?_, ?_, fun trials => foldBest_le trials⟩
  · intro best trial h
    rw [updateBest, if_neg (by exact not_lt.mpr h)]
  · intro best trial h
    rw [updateBest, if_pos h]

/-- Witness for C4 at concrete inputs: a non-improving trial `(2, 3)`
leaves the best `(1, 5)` unchanged, and an improving trial `(2, 7)`
replaces it. -/
theorem best_performance_monotone_witness :
    updateBest (1, 5) (2, 3) = (1, 5) ∧ updateBest (1, 5) (2, 7) = (2, 7) :=
  ⟨best_performance_monotone.2.1 (1, 5) (2, 3) (by norm_num),
    best_performance_monotone.2.2.1 (1, 5) (2, 7) (by norm_num)⟩

/-- C9: a trial can only finalize with a positive integer-truncated
throughput; consequently, after at least one finalized trial the folded
best performance is strictly positive and the best batch size is the batch
size of one of the finalized trials (the first finalized trial always
replaces the initial `(0, 0)`). -/
theorem first_trial_becomes_best :
    (∀ (total : Nat) (trace : List (Nat × ℚ)) (t : Nat) (perf : ℚ),
        (trialRun total trace).2 = some (t, perf) → 0 < ⌊perf⌋) ∧
    (∀ trials : List (Nat × ℚ), trials ≠ [] → (∀ s ∈ trials, 0 < ⌊s.2⌋) →
        0 < (runBest trials).2 ∧ (runBest trials).1 ∈ trials.map Prod.fst) := by
  constructor
  · intro total trace t perf hsome
    rw [trialRun_eq_find trace total] at hsome
    rcases hfind : (stepChecks total trace).find? accept with _ | te
    · rw [hfind] at hsome
      simp at hsome
    · rw [hfind, Option.map_some'] at hsome
      have hacc : accept te = true := List.find?_some hfind
      rw [accept, decide_eq_true_eq] at hacc
      have hperf : perf = (te.1 : ℚ) / te.2 := (Prod.mk.injEq _ _ _ _ ▸ Option.some.inj hsome).2.symm
      rw [hperf]
      exact hacc.2.1
  · intro trials hne hpos
    match trials with
    | [] => exact absurd rfl hne
    | t :: ts =>
      have ht : (0 : ℚ) < t.2 := by
        have h1 : 0 < ⌊t.2⌋ := hpos t (List.mem_cons_self _ _)
        have h2 : (1 : ℚ) ≤ t.2 := by
          have := Int.le_floor.mp h1
          exact_mod_cast this
        linarith
      have hstep : runBest (t :: ts) = ts.foldl updateBest t := by
        rw [runBest, List.foldl_cons, updateBest, if_pos (by simpa using ht)]
      constructor
      · rw [hstep]
        exact lt_of_lt_of_le ht (foldBest_le ts t)
      · rw [hstep]
        rcases foldBest_mem ts t with h | h
        · rw [h]
          exact List.mem_map_of_mem Prod.fst (List.mem_cons_self _ _)
        · exact List.mem_map_of_mem Prod.fst (List.mem_cons_of_mem _ h)

/-- Witness for C9: the trace `[(10, 2)]` finalizes with throughput `5`
(`⌊5⌋ > 0`), and the single-trial run `[(4, 5)]` ends with a positive best
performance and best batch size `4`. -/
theorem first_trial_becomes_best_witness :
    (0 < ⌊(5 : ℚ)⌋) ∧
      (0 < (runBest [(4, 5)]).2 ∧ (runBest [(4, 5)]).1 ∈ ([(4, 5)] : List (Nat × ℚ)).map Prod.fst) :=
  ⟨first_trial_becomes_best.1 0 [(10, 2)] 10 5 (by norm_num [trialRun]),
    first_trial_becomes_best.2 [(4, 5)] (by simp) (by norm_num)⟩

/-!
### `PrintCallback::found` (lines 95–122)

The reporting sink increments its `found` counter, derives and reports the
credential pair (external I/O, irrelevant to the stop decision), and
returns `self.found < self.count`.  Only the counter state matters for the
returned continue/stop decision, so that is what is modelled.
-/

structure PrintCallback where
  found : Nat
  count : Nat

/-- One `found` callback invocation (lines 103–121): the updated sink state
and the returned continue (`true`) / stop (`false`) decision. -/
def PrintCallback.foundCall (cb : PrintCallback) : PrintCallback × Bool :=
  ({ cb with found := cb.found + 1 }, decide (cb.found + 1 < cb.count))

/-- The sink state after `n` matches have been delivered. -/
def iterCalls (cb : PrintCallback) : Nat → PrintCallback
  | 0 => cb
  | n + 1 => (PrintCallback.foundCall (iterCalls cb n)).1

/-- The Bool returned by the `i`-th call (1-based) on a fresh sink with
target `c`. -/
def nthReturn (c i : Nat) : Bool :=
  (PrintCallback.foundCall (iterCalls ⟨0, c⟩ (i - 1))).2

theorem iterCalls_fresh (c : Nat) : ∀ n, iterCalls ⟨0, c⟩ n = ⟨n, c⟩ := by
  intro n
  induction n with
  | zero => rfl
  | succ n ih => rw [iterCalls, ih]; rfl

/-- C3: with target `count = N` the sink returns `true` (continue) on each
of the first `N - 1` matches and `false` (stop) on the `N`-th match; with
`count = 0` it returns `false` already on the first match. -/
theorem printCallback_stop_rule (N : Nat) :
    (∀ i, 1 ≤ i → i < N → nthReturn N i = true) ∧
    nthReturn N N = false ∧
    nthReturn 0 1 = false := by
  refine ⟨?_, ?_, ?_⟩
  · intro i h1 hN
    rw [nthReturn, iterCalls_fresh, PrintCallback.foundCall]
    simp only [decide_eq_true_eq]
    omega
  · rw [nthReturn, iterCalls_fresh, PrintCallback.foundCall]
    simp only [decide_eq_false_iff_not]
    omega
  · rfl

/-- Witness for C3 at `N = 2`: the first match continues, the second stops;
and with `N = 0` the first match already stops. -/
theorem printCallback_stop_rule_witness :
    nthReturn 2 1 = true ∧ nthReturn 2 2 = false ∧ nthReturn 0 1 = false :=
  ⟨(printCallback_stop_rule 2).1 1 (by decide) (by decide),
    (printCallback_stop_rule 2).2.1,
    (printCallback_stop_rule 0).2.2⟩

/-!
### Generate driver loop (`generate`, lines 160–191)

Each iteration calls `runner.step()`, adds `processed` to the running
`total`, prints a benchmark report exactly when
`args.benchmark && !stop && total > 0`, and breaks once `stop` is true.
The runner is modelled as a trace of `(processed, stop)` step results.
`generateRun bench total trace` returns the number of `step()` calls
issued, the running totals at which benchmark reports were printed, and
whether the loop exited (`false` means the trace ran out with the loop
still running).
-/

/-- The benchmark report of one step: emitted iff the benchmark flag is
set, the step was non-terminal, and the running total is positive
(lines 169–185).  The report's contents are keyed by the running total. -/
def stepReport (bench stop : Bool) (t : Nat) : List Nat :=
  if bench && !stop && decide (0 < t) then [t] else []

def generateRun (bench : Bool) : Nat → List (Nat × Bool) → Nat × List Nat × Bool
  | _, [] => (0, [], false)
  | total, (p, stop) :: rest =>
    if stop then (1, stepReport bench stop (total + p), true)
    else
      ((generateRun bench (total + p) rest).1 + 1,
        stepReport bench stop (total + p) ++ (generateRun bench (total + p) rest).2.1,
        (generateRun bench (total + p) rest).2.2)

/-- The per-step `(running total, stop)` observations of a trace. -/
def genChecks : Nat → List (Nat × Bool) → List (Nat × Bool)
  | _, [] => []
  | total, (p, stop) :: rest => (total + p, stop) :: genChecks (total + p) rest

theorem stepReport_false (bench : Bool) (t : Nat) :
    stepReport bench false t = if bench = true ∧ 0 < t then [t] else [] := by
  cases bench
  · simp [stepReport]
  · simp [stepReport]

/-- C8: if some step of the trace reports `done`, the stepping loop issues
exactly `firstDoneIndex + 1` calls (exiting at the first `done`, with no
further steps), exits, and prints a benchmark report after a step iff the
benchmark flag is set, that step's `done` is false, and the running total
is positive. -/
theorem generate_loop_behaviour (bench : Bool) (trace : List (Nat × Bool)) :
    ∀ total : Nat, (∃ s ∈ trace, s.2 = true) →
      generateRun bench total trace =
        (trace.findIdx (fun s => s.2) + 1,
          (((genChecks total trace).take (trace.findIdx (fun s => s.2) + 1)).filter
              (fun tb => bench && !tb.2 && decide (0 < tb.1))).map Prod.fst,
          true) := by
  induction trace with
  | nil =>
    intro total h
    simp at h
  | cons step rest ih =>
    intro total h
    obtain ⟨p, stop⟩ := step
    cases stop with
    | true =>
      rw [generateRun, if_pos rfl, genChecks]
      have hidx : (((p, true) :: rest).findIdx fun s => s.2) = 0 := by
        simp [List.findIdx_cons]
      rw [hidx]
      simp [stepReport, List.filter_cons]
    | false =>
      have hrest : ∃ s ∈ rest, s.2 = true := by
        rcases h with ⟨s, hs, hs2⟩
        rcases List.mem_cons.mp hs with h1 | h1
        · rw [h1] at hs2
          simp at hs2
        · exact ⟨s, h1, hs2⟩
      have hidx : (((p, false) :: rest).findIdx fun s => s.2) =
          (rest.findIdx fun s => s.2) + 1 := by
        simp [List.findIdx_cons]
      rw [generateRun, if_neg (by simp), genChecks, ih (total + p) hrest, hidx]
      have hcond : ((bench && !(false : Bool) && decide (0 < total + p)) = true) ↔
          (bench = true ∧ 0 < total + p) := by simp
      by_cases hb : bench = true ∧ 0 < total + p
      · simp only [List.take_succ_cons, List.filter_cons, if_pos (hcond.mpr hb),
          List.map_cons, stepReport_false, if_pos hb]
        simp
      · simp only [List.take_succ_cons, List.filter_cons,
          if_neg (fun hc => hb (hcond.mp hc)), stepReport_false, if_neg hb]
        simp

/-- Witness for C8 on the trace `[(0, false), (5, false), (3, true)]` with
the benchmark flag set: three steps are issued, one report (total `5`) is
printed, and the loop exits at the first `done`. -/
theorem generate_loop_behaviour_witness :
    generateRun true 0 [(0, false), (5, false), (3, true)] =
      (([(0, false), (5, false), (3, true)] : List (Nat × Bool)).findIdx
          (fun s => s.2) + 1,
        (((genChecks 0 [(0, false), (5, false), (3, true)]).take
              ((([(0, false), (5, false), (3, true)] : List (Nat × Bool)).findIdx
                (fun s => s.2)) + 1)).filter
            (fun tb => true && !tb.2 && decide (0 < tb.1))).map Prod.fst,
        true) :=
  generate_loop_behaviour true [(0, false), (5, false), (3, true)] 0 (by decide)

/-!
### Prefix-list assembly (lines 76–85, 135–136 and 197–212)

The prefix file is modelled as the list of its lines as yielded by
`BufRead::lines()`: line terminators removed, all other whitespace intact.
`read_prefixes_from_file` pushes each line unchanged (when a file name is
given).  `generate` hands `ctx.prepare` the literal positional argument
followed by those raw lines.  `optimize` first applies the external
engine's `prepare_prefixes` normalization to that same list, then — the
code reads the file a second time — pushes every line again with
surrounding whitespace trimmed (`str::trim`), and falls back to the
placeholder `"AAAAAAAAAA"` when the result is empty.
-/

def read_prefixes_from_file (file : String) (lines prefixes : List String) :
    List String :=
  if file = "" then prefixes
  else lines.foldl (fun acc l => acc ++ [l]) prefixes

/-- Rust `str::trim`: whitespace removed from both ends (modelled over the
ASCII whitespace recognised by `Char.isWhitespace`). -/
def rustTrim (s : String) : String :=
  ⟨((s.data.dropWhile Char.isWhitespace).reverse.dropWhile Char.isWhitespace).reverse⟩

/-- Trailing whitespace removed — the normalization the claim asserts. -/
def trimRight (s : String) : String :=
  ⟨(s.data.reverse.dropWhile Char.isWhitespace).reverse⟩

/-- Modelled from the spec: `prepare_prefixes` belongs to the external
`agvg::bacon` engine and its source is not in this repository's `src/`.
The spec (§3) says blank/empty entries are permitted and "normalized away"
by the engine's preparation step; it is modelled as dropping empty entries
and keeping all others unchanged. -/
def prepare_prefixes (prefixes : List String) : List String :=
  prefixes.filter (fun p => p != "")

/-- The prefix list handed to `ctx.prepare` by `generate`
(lines 135–136 and 151). -/
def generatePrefixList (literal fileName : String) (lines : List String) :
    List String :=
  read_prefixes_from_file fileName lines [literal]

/-- The prefix list handed to `ctx.prepare` by `optimize` (lines 197–212
and 232). -/
def optimizePrefixList (literal fileName : String) (lines : List String) :
    List String :=
  let p1 := prepare_prefixes (read_prefixes_from_file fileName lines [literal])
  let p2 := if fileName = "" then p1
    else lines.foldl (fun acc l => acc ++ [rustTrim l]) p1
  if p2.length = 0 then ["AAAAAAAAAA"] else p2

/-- The prefix list as the claim describes it for both subcommands: the
literal argument followed by the file's lines with trailing whitespace
trimmed, each line appearing exactly once. -/
def claimedPrefixList (literal : String) (lines : List String) : List String :=
  literal :: lines.map trimRight

theorem foldl_push (lines : List String) :
    ∀ acc : List String, lines.foldl (fun a l => a ++ [l]) acc = acc ++ lines := by
  induction lines with
  | nil => intro acc; simp
  | cons l ls ih =>
    intro acc
    rw [List.foldl_cons, ih]
    simp

theorem foldl_push_map (f : String → String) (lines : List String) :
    ∀ acc : List String,
      lines.foldl (fun a l => a ++ [f l]) acc = acc ++ lines.map f := by
  induction lines with
  | nil => intro acc; simp
  | cons l ls ih =>
    intro acc
    rw [List.foldl_cons, ih]
    simp

/-- C6 counterexample: with literal `"X"` and a prefix file whose single
line is `"AB "` (a trailing space), `generate` hands the engine
`["X", "AB "]` — the trailing whitespace is NOT trimmed — and `optimize`
hands it `["X", "AB ", "AB"]` — the file line appears twice; neither equals
the claimed `["X", "AB"]`. -/
theorem prefix_list_claim_false :
    generatePrefixList "X" "p.txt" ["AB "] ≠ claimedPrefixList "X" ["AB "] ∧
      optimizePrefixList "X" "p.txt" ["AB "] ≠ claimedPrefixList "X" ["AB "] := by
  constructor
  · decide
  · decide

/-- C6 amended: when no file is given `generate` hands the engine just the
literal argument; when a file is given it hands the literal followed by the
file's lines exactly as read (terminator removed, trailing whitespace
preserved), each once; `optimize` hands the engine's `prepare_prefixes`
normalization of that same concatenation followed by a SECOND copy of every
file line with surrounding whitespace trimmed, falling back to the
placeholder when the result is empty. -/
theorem prefix_list_amended (literal fileName : String) (lines : List String)
    (hfile : fileName ≠ "") :
    generatePrefixList literal fileName lines = literal :: lines ∧
    generatePrefixList literal "" lines = [literal] ∧
    optimizePrefixList literal fileName lines =
      (if (prepare_prefixes (literal :: lines) ++ lines.map rustTrim).length = 0
        then ["AAAAAAAAAA"]
        else prepare_prefixes (literal :: lines) ++ lines.map rustTrim) := by
  refine ⟨?_, ?_, ?_⟩
  · rw [generatePrefixList, read_prefixes_from_file, if_neg hfile, foldl_push]
    simp
  · rw [generatePrefixList, read_prefixes_from_file, if_pos rfl]
  · rw [optimizePrefixList, read_prefixes_from_file, if_neg hfile, if_neg hfile,
      foldl_push, foldl_push_map]
    simp

/-- Witness for the amended C6 at literal `"X"`, file `"p.txt"` with single
line `"AB "`. -/
theorem prefix_list_amended_witness :
    generatePrefixList "X" "p.txt" ["AB "] = "X" :: ["AB "] ∧
    generatePrefixList "X" "" ["AB "] = ["X"] ∧
    optimizePrefixList "X" "p.txt" ["AB "] =
      (if (prepare_prefixes ("X" :: ["AB "]) ++
            (["AB "] : List String).map rustTrim).length = 0
        then ["AAAAAAAAAA"]
        else prepare_prefixes ("X" :: ["AB "]) ++
          (["AB "] : List String).map rustTrim) :=
  prefix_list_amended "X" "p.txt" ["AB "] (by decide)

end Bacon
